import Mathlib

/-!
Verification development for the TweetClassifier repository.

This file gives a shallow embedding, in Lean 4, of the classification and
clustering core of the repository (files src/lib/knn.ts and
src/lib/clustering.ts), and proves or refutes the frozen specification
claims about it.

Modelling conventions:
* JavaScript numbers are idealized as exact rationals.  The only
  transcendental operation used by the code, Math.sqrt (in the ward
  linkage update and in the cosine magnitude), is modelled by an explicit
  function parameter sqrtFn so that every definition stays computable;
  theorems about it quantify over sqrtFn.
* A JavaScript Set preserves first-insertion order; spreading a Set into
  an array therefore deduplicates keeping the first occurrence.  This is
  modelled by jsDedup.
* A JavaScript Map preserves insertion order and updates in place; it is
  modelled by an association list where an update rewrites the existing
  entry in place and an insert appends.
* Mutable arrays and the mutable distance matrix are modelled by lists
  with explicit functional updates (mset below); the working distance
  matrix and the caller-supplied matrix are both carried in the
  clustering state so that write targets are explicit.
-/

/-- Auxiliary for jsDedup: keeps elements not yet seen, in order,
threading the set of already-seen elements. -/
def jsDedupAux {α : Type} [DecidableEq α] : List α → List α → List α
  | [], _ => []
  | x :: xs, seen =>
    if x ∈ seen then jsDedupAux xs seen else x :: jsDedupAux xs (x :: seen)

/-- Deduplication keeping the first occurrence of every element, in order.
This models spreading a JavaScript Set built from a list, as in
new Set of a spread array. -/
def jsDedup {α : Type} [DecidableEq α] (l : List α) : List α := jsDedupAux l []

/-- Auxiliary tokenizer: collects maximal runs of non-whitespace characters.
The accumulator holds the current run in reverse. -/
def splitWsAux : List Char → List Char → List String
  | [], cur => if cur.isEmpty then [] else [String.mk cur.reverse]
  | c :: cs, cur =>
    if c.isWhitespace then
      (if cur.isEmpty then [] else [String.mk cur.reverse]) ++ splitWsAux cs []
    else
      splitWsAux cs (c :: cur)

/-- Tokenize a string on whitespace, dropping empty tokens.  This models
the JavaScript idiom of splitting on a whitespace regular expression and
filtering out words of length zero: the result is exactly the list of
maximal nonempty runs of non-whitespace characters. -/
def splitWs (s : String) : List String := splitWsAux s.data []

/-- Lowercase a string character by character; models toLowerCase. -/
def jsToLower (s : String) : String := String.mk (s.data.map Char.toLower)

/-- Word set of a string: tokens deduplicated in first-seen order.
Models building a JavaScript Set from the whitespace-split, nonempty
tokens of the string. -/
def wordSet (s : String) : List String := jsDedup (splitWs s)

/-- Embedding of defaultDistance from src/lib/knn.ts: case-sensitive
whitespace tokenization into sets, then (union minus intersection) over
union, with 1 for an empty union. -/
def defaultDistance (t1 t2 : String) : ℚ :=
  let words1 := wordSet t1
  let words2 := wordSet t2
  let union := jsDedup (words1 ++ words2)
  let intersection := jsDedup (words1.filter (fun x => x ∈ words2))
  if union.length = 0 then 1
  else ((union.length : ℚ) - intersection.length) / union.length

/-- Embedding of jaccardDistance from src/lib/knn.ts. -/
def jaccardDistance (t1 t2 : String) : ℚ :=
  let words1 := wordSet t1
  let words2 := wordSet t2
  let intersection := jsDedup (words1.filter (fun x => x ∈ words2))
  let union := jsDedup (words1 ++ words2)
  if union.length = 0 then 1
  else 1 - (intersection.length : ℚ) / union.length

/-- Edit-distance recursion underlying levenshteinDistance in
src/lib/knn.ts.  The source fills a table where entry (i, j) is the
distance between the i-prefix of the first string and the j-prefix of the
second, with entry (i, 0) = i, entry (0, j) = j, and the recurrence
taking the diagonal value when the characters match and otherwise one
plus the minimum of the diagonal, left and up entries; this recursion
computes the same values on the remaining suffixes. -/
def lev : List Char → List Char → ℕ
  | [], ys => ys.length
  | x :: xs, [] => (x :: xs).length
  | x :: xs, y :: ys =>
    if x = y then lev xs ys
    else min (lev xs ys + 1) (min (lev (x :: xs) ys + 1) (lev xs (y :: ys) + 1))
termination_by xs ys => xs.length + ys.length
decreasing_by
  all_goals simp only [List.length_cons]
  all_goals omega

/-- Embedding of levenshteinDistance from src/lib/knn.ts: edit distance
over raw characters normalized by the maximum length, 0 when both
strings are empty. -/
def levenshteinDistance (s1 s2 : String) : ℚ :=
  let len1 := s1.data.length
  let len2 := s2.data.length
  let maxLen := max len1 len2
  if maxLen = 0 then 0 else (lev s1.data s2.data : ℚ) / maxLen

/-- Embedding of cosineDistance from src/lib/knn.ts, with Math.sqrt
modelled by the parameter sqrtFn. -/
def cosineDistance (sqrtFn : ℚ → ℚ) (t1 t2 : String) : ℚ :=
  let words1 := splitWs t1
  let words2 := splitWs t2
  let allWords := jsDedup (words1 ++ words2)
  let vec1 := allWords.map (fun w => (words1.filter (fun x => x = w)).length)
  let vec2 := allWords.map (fun w => (words2.filter (fun x => x = w)).length)
  let dotProduct := ((vec1.zip vec2).map (fun p => (p.1 : ℚ) * p.2)).sum
  let mag1 := sqrtFn ((vec1.map (fun v : ℕ => (v : ℚ) * v)).sum)
  let mag2 := sqrtFn ((vec2.map (fun v : ℕ => (v : ℚ) * v)).sum)
  if mag1 = 0 ∨ mag2 = 0 then 1 else 1 - dotProduct / (mag1 * mag2)

/-- Embedding of tweetDistance from src/lib/clustering.ts: lowercases
both tweets, tokenizes into sets, and divides the non-common word count
by the sum of the two set sizes (not by the union size). -/
def tweetDistance (tweet1 tweet2 : String) : ℚ :=
  let words1 := wordSet (jsToLower tweet1)
  let words2 := wordSet (jsToLower tweet2)
  let commonWords := jsDedup (words1.filter (fun w => w ∈ words2))
  let totalWords := words1.length + words2.length
  if totalWords = 0 then 1
  else ((totalWords : ℚ) - commonWords.length) / totalWords

/-- Distance matrices are lists of rows of rationals. -/
abbrev Mat := List (List ℚ)

/-- Read entry (i, j) of a matrix, with 0 for out-of-range indices
(the embedded algorithms only read in-range entries). -/
def mget (d : Mat) (i j : ℕ) : ℚ := (d.getD i []).getD j 0

/-- Write entry (i, j) of a matrix; out of range, this is a no-op
(the embedded algorithms only write in-range entries). -/
def mset (d : Mat) (i j : ℕ) (v : ℚ) : Mat := d.set i ((d.getD i []).set j v)

/-- The fields of a tweet read by the classification and clustering core:
raw text, cleaned text, and label. -/
structure Tweet where
  text : String
  cleaned : String
  label : String
deriving DecidableEq, Inhabited, Repr

/-- All ordered pairs of positions (earlier element first), in the scan
order of the source's nested loops: ascending first index, then
ascending second index. -/
def orderedPairs {α : Type} : List α → List (α × α)
  | [] => []
  | x :: xs => xs.map (fun y => (x, y)) ++ orderedPairs xs

/-- Embedding of createDistanceMatrix from src/lib/clustering.ts: an
n-by-n zero matrix whose (i, j) and (j, i) entries, for i less than j,
are set to the tweetDistance of the cleaned texts. -/
def createDistanceMatrix (tweets : List Tweet) : Mat :=
  let n := tweets.length
  let matrix : Mat := List.replicate n (List.replicate n 0)
  (orderedPairs (List.range n)).foldl
    (fun m p =>
      let dist := tweetDistance (tweets.getD p.1 default).cleaned (tweets.getD p.2 default).cleaned
      mset (mset m p.1 p.2 dist) p.2 p.1 dist)
    matrix

/-- Embedding of the ClusterNode record from src/lib/clustering.ts.  The
source marks left and right as optional fields, but every record the
clustering engine constructs sets both, so they are plain numbers here. -/
structure ClusterNode where
  left : ℕ
  right : ℕ
  distance : ℚ
  count : ℕ
deriving DecidableEq, Repr

/-- The three linkage methods of src/lib/clustering.ts. -/
inductive LinkageMethod
  | average
  | complete
  | ward
deriving DecidableEq, Repr

/-- Closest-pair scan of the clustering loop: fold over all ordered pairs
of active indices, keeping the first pair whose distance is strictly
smaller than the best so far.  The source starts with minDist equal to
Infinity and minI, minJ equal to negative one; since the rationals have
no Infinity, the not-yet-found state is modelled by none, which every
entry beats, exactly as every finite entry beats Infinity.  This is the
body of the scan for one candidate pair. -/
def minStep (d : Mat) (best : Option (ℕ × ℕ × ℚ)) (p : ℕ × ℕ) : Option (ℕ × ℕ × ℚ) :=
  match best with
  | none => some (p.1, p.2, mget d p.1 p.2)
  | some b =>
    if mget d p.1 p.2 < b.2.2 then some (p.1, p.2, mget d p.1 p.2) else some b

/-- The full closest-pair scan of lines 70-85 of src/lib/clustering.ts:
fold minStep over all ordered pairs of active indices in scan order. -/
def findMinPair (d : Mat) (act : List ℕ) : Option (ℕ × ℕ × ℚ) :=
  (orderedPairs act).foldl (minStep d) none

/-- The linkage distance-update expression of src/lib/clustering.ts,
lines 107-124, as a function of the three pre-merge entries read by the
source (distances from i to k, from j to k, and from i to j) and the
three pre-merge sizes; Math.sqrt is the parameter sqrtFn. -/
def updateDist (sqrtFn : ℚ → ℚ) (method : LinkageMethod)
    (dik djk dij : ℚ) (si sj sk : ℕ) : ℚ :=
  match method with
  | .average => (dik * si + djk * sj) / ((si : ℚ) + sj)
  | .complete => max dik djk
  | .ward =>
    sqrtFn ((((si : ℚ) + sk) * dik * dik + ((sj : ℚ) + sk) * djk * djk
      - (sk : ℚ) * dij * dij) / ((si : ℚ) + sj + sk))

/-- The distance-update loop of src/lib/clustering.ts, lines 104-128: for
each remaining active index k (the active set with minJ already deleted
and minI skipped), write the new linkage distance into entries
(minI, k) and (k, minI) of the working matrix. -/
def updateRow (sqrtFn : ℚ → ℚ) (method : LinkageMethod) (sizes : List ℕ)
    (minI minJ : ℕ) (d : Mat) (ks : List ℕ) : Mat :=
  ks.foldl
    (fun d k =>
      let newDist := updateDist sqrtFn method (mget d minI k) (mget d minJ k)
        (mget d minI minJ) (sizes.getD minI 0) (sizes.getD minJ 0) (sizes.getD k 0)
      mset (mset d minI k newDist) k minI newDist)
    d

/-- State of the clustering loop.  The field callerMatrix holds the
matrix array the caller passed in; the source copies it row by row into
the separate working array distances (line 66) and every in-place matrix
write of the loop targets distances, so the state makes the write
targets of the heap explicit. -/
structure HCState where
  callerMatrix : Mat
  active : List ℕ
  sizes : List ℕ
  distances : Mat
  clusters : List ClusterNode
deriving Repr

/-- One iteration of the clustering while-loop (lines 68-131 of
src/lib/clustering.ts): find the closest active pair, record the merge,
delete minJ from the active set, update distances from minI to every
remaining active index, and grow minI's size.  Returns none when the
closest-pair scan found no pair, which is the source's break.  The
source also computes newIndex equal to n plus the number of recorded
merges minus one at this point (line 98) and never uses it; that dead
binding has no counterpart here. -/
def hcStep (sqrtFn : ℚ → ℚ) (method : LinkageMethod) (st : HCState) : Option HCState :=
  match findMinPair st.distances st.active with
  | none => none
  | some (minI, minJ, minDist) =>
    let newCluster : ClusterNode :=
      ⟨minI, minJ, minDist, st.sizes.getD minI 0 + st.sizes.getD minJ 0⟩
    let clusters := st.clusters ++ [newCluster]
    let active := st.active.filter (fun c => c ≠ minJ)
    let distances := updateRow sqrtFn method st.sizes minI minJ st.distances
      (active.filter (fun c => c ≠ minI))
    let sizes := st.sizes.set minI (st.sizes.getD minI 0 + st.sizes.getD minJ 0)
    some { st with active := active, sizes := sizes, distances := distances,
                   clusters := clusters }

/-- The clustering while-loop, with explicit fuel.  The loop body runs
while more than one active cluster remains; each successful step removes
one active index, so fuel equal to the initial number of documents is
never exhausted before the loop's own condition stops it. -/
def hcLoop (sqrtFn : ℚ → ℚ) (method : LinkageMethod) : ℕ → HCState → HCState
  | 0, st => st
  | fuel + 1, st =>
    if 1 < st.active.length then
      match hcStep sqrtFn method st with
      | none => st
      | some st2 => hcLoop sqrtFn method fuel st2
    else st

/-- Initial clustering state for a caller-supplied matrix: every document
is its own active singleton cluster of size 1, and the working matrix is
a row-by-row copy of the caller's matrix (line 66). -/
def initState (m : Mat) : HCState :=
  { callerMatrix := m
    active := List.range m.length
    sizes := List.replicate m.length 1
    distances := m.map (fun row => row.map (fun x => x))
    clusters := [] }

/-- Full clustering run, returning the final state. -/
def hierarchicalClusteringRun (sqrtFn : ℚ → ℚ) (m : Mat) (method : LinkageMethod) : HCState :=
  hcLoop sqrtFn method m.length (initState m)

/-- Embedding of hierarchicalClustering from src/lib/clustering.ts:
the ordered list of merge records. -/
def hierarchicalClustering (sqrtFn : ℚ → ℚ) (m : Mat) (method : LinkageMethod) : List ClusterNode :=
  (hierarchicalClusteringRun sqrtFn m method).clusters

/-- Embedding of formClusters from src/lib/clustering.ts.  The slice of
the last k minus 1 merges follows the JavaScript slice semantics for a
possibly negative start index; indexOf finds the position of a merge
record in the full dendrogram (merge records produced by the engine are
pairwise distinct because each records a distinct retired right index,
so structural search agrees with the source's reference search); and the
final renumbering maps every id to its position in the first-seen list
of distinct ids, which also models the source's fallback of 0 for a
missing map entry since lookups never miss.  This is the per-merge
reassignment of lines 143-153: documents directly cited as a left or
right child with an index below n are reassigned the merge's id of
n plus its position in the full dendrogram. -/
def assignStep (linkage : List ClusterNode) (n : ℕ) (asg : List ℕ)
    (merge : ClusterNode) : List ℕ :=
  let clusterId := n + linkage.indexOf merge
  let asg2 := if merge.left < n then asg.set merge.left clusterId else asg
  if merge.right < n then asg2.set merge.right clusterId else asg2

/-- The assignment list of formClusters before the final renumbering:
start from the identity assignment and apply assignStep over the merges
selected by slicing the last k minus 1 records (JavaScript slice
semantics for a possibly negative start index). -/
def rawAssignments (linkage : List ClusterNode) (k n : ℕ) : List ℕ :=
  let start : ℤ := -((k : ℤ) - 1)
  let startIdx : ℕ :=
    if start < 0 then ((linkage.length : ℤ) + start).toNat
    else min start.toNat linkage.length
  let merges := linkage.drop startIdx
  merges.foldl (assignStep linkage n) (List.range n)

/-- Embedding of formClusters from src/lib/clustering.ts: the raw
assignments renumbered densely in first-seen order. -/
def formClusters (linkage : List ClusterNode) (k n : ℕ) : List ℕ :=
  let assignments := rawAssignments linkage k n
  assignments.map (fun a => (jsDedup assignments).indexOf a)

/-- Insertion-ordered map update used by the vote and evaluation code:
adding w under a key rewrites an existing entry in place (JavaScript
Map.set keeps the original insertion position) or appends a new entry. -/
def bumpEntry (m : List (String × ℚ)) (key : String) (w : ℚ) : List (String × ℚ) :=
  if m.any (fun p => p.1 = key) then
    m.map (fun p => if p.1 = key then (p.1, p.2 + w) else p)
  else m ++ [(key, w)]

/-- Count occurrences of each ground-truth label inside each cluster,
in insertion order, as in lines 167-178 of src/lib/clustering.ts. -/
def buildClusterLabels (predicted : List ℕ) (actual : List String) :
    List (ℕ × List (String × ℚ)) :=
  (predicted.zip actual).foldl
    (fun acc pair =>
      if acc.any (fun p => p.1 = pair.1) then
        acc.map (fun p => if p.1 = pair.1 then (p.1, bumpEntry p.2 pair.2 1) else p)
      else acc ++ [(pair.1, bumpEntry [] pair.2 1)])
    []

/-- Scan for the label with the strictly greatest count, starting from
count 0 and the empty string, as in lines 183-190 of
src/lib/clustering.ts: the first label to reach the maximum keeps it. -/
def dominantLabel (counts : List (String × ℚ)) : String :=
  (counts.foldl (fun best p => if p.2 > best.2 then p else best) ("", 0)).1

/-- Embedding of calculateAccuracy from src/lib/clustering.ts.  With
equal-length nonempty inputs this is the fraction of documents whose
label equals the dominant label of their cluster; mismatched lengths
return 0.  The source's division of 0 by 0 on empty input, which yields
NaN, is outside every claim and is not modelled. -/
def calculateAccuracy (predicted : List ℕ) (actual : List String) : ℚ :=
  if predicted.length ≠ actual.length then 0
  else
    let clusterToLabel := (buildClusterLabels predicted actual).map
      (fun p => (p.1, dominantLabel p.2))
    let correct := ((predicted.zip actual).filter
      (fun pair =>
        match clusterToLabel.find? (fun q => q.1 = pair.1) with
        | some q => q.2 = pair.2
        | none => false)).length
    (correct : ℚ) / predicted.length

/-- Embedding of calculateRandIndex from src/lib/clustering.ts.  The
counts a and b follow the source's nested loops over index pairs; the
final division is by n times n minus 1 over 2, and when that total is 0
(fewer than two items) the source divides 0 by 0, producing NaN, which
is modelled as none. -/
def calculateRandIndex (clusters1 : List ℕ) (clusters2 : List String) : Option ℚ :=
  let n := clusters1.length
  let pairs := orderedPairs (List.range n)
  let a := pairs.countP
    (fun p => (clusters1.getD p.1 0 == clusters1.getD p.2 0) &&
      (clusters2.getD p.1 "" == clusters2.getD p.2 ""))
  let b := pairs.countP
    (fun p => (!(clusters1.getD p.1 0 == clusters1.getD p.2 0)) &&
      (!(clusters2.getD p.1 "" == clusters2.getD p.2 "")))
  let total := n * (n - 1) / 2
  if total = 0 then none else some (((a : ℚ) + b) / total)

/-- Parameters of the KNN classifier. -/
structure KNNParams where
  k : ℕ
  voteType : String
  distanceType : String
deriving DecidableEq, Repr

/-- Embedding of getDistanceFunction from src/lib/knn.ts: any name other
than the three recognized ones falls back to defaultDistance. -/
def getDistanceFunction (sqrtFn : ℚ → ℚ) (type : String) : String → String → ℚ :=
  if type = "jaccard" then jaccardDistance
  else if type = "levenshtein" then levenshteinDistance
  else if type = "cosine" then cosineDistance sqrtFn
  else defaultDistance

/-- Insert a (distance, label) pair after every earlier pair of smaller
or equal distance. -/
def insertByDistance (x : ℚ × String) : List (ℚ × String) → List (ℚ × String)
  | [] => [x]
  | y :: ys => if y.1 ≤ x.1 then y :: insertByDistance x ys else x :: y :: ys

/-- Stable ascending sort by distance, modelling the JavaScript stable
Array sort with the numeric comparator on the distance field: each
element is inserted after all earlier elements whose distance is smaller
or equal, so ties preserve input order. -/
def sortByDistance (l : List (ℚ × String)) : List (ℚ × String) :=
  l.foldl (fun acc x => insertByDistance x acc) []

/-- The neighbor weight of the weighted vote in src/lib/knn.ts line 105:
weight 1 at distance exactly 0, otherwise the reciprocal of the distance
plus one ten-thousandth. -/
def neighborWeight (d : ℚ) : ℚ := if d = 0 then 1 else 1 / (d + 1 / 10000)

/-- Scan an insertion-ordered weight map for the entry with strictly
greatest weight, starting from weight negative one and the label
"neutral", as in lines 109-117 and 128-136 of src/lib/knn.ts. -/
def pickMaxLabel (entries : List (String × ℚ)) : String :=
  (entries.foldl (fun best p => if p.2 > best.2 then p else best) ("neutral", -1)).1

/-- Embedding of knnClassify from src/lib/knn.ts.  Distances to every
training tweet are computed on the cleaned text, or the raw text when
the cleaned text is empty (the source's falsy fallback); the list is
stably sorted ascending by distance and truncated to k; then either the
weighted vote (per-label sums of neighborWeight) or the majority vote
(per-label counts) picks the label with the strictly greatest total,
first insertion winning ties. -/
def knnClassify (sqrtFn : ℚ → ℚ) (tweetText : String) (trainingData : List Tweet)
    (params : KNNParams) : String :=
  let distanceFn := getDistanceFunction sqrtFn params.distanceType
  let pairs := trainingData.map
    (fun tweet =>
      (distanceFn tweetText (if tweet.cleaned = "" then tweet.text else tweet.cleaned),
        tweet.label))
  let neighbors := (sortByDistance pairs).take params.k
  if params.voteType = "weighted" then
    pickMaxLabel (neighbors.foldl
      (fun ws p => bumpEntry ws p.2 (neighborWeight p.1)) [])
  else
    pickMaxLabel (neighbors.foldl (fun ws p => bumpEntry ws p.2 1) [])

/-! ### Basic lemmas about the list utilities -/

theorem mem_jsDedupAux {α : Type} [DecidableEq α] (a : α) :
    ∀ (l seen : List α), a ∈ jsDedupAux l seen ↔ a ∈ l ∧ a ∉ seen := by
  intro l
  induction l with
  | nil => intro seen; simp [jsDedupAux]
  | cons x xs ih =>
    intro seen
    by_cases hx : x ∈ seen
    · rw [jsDedupAux, if_pos hx, ih]
      constructor
      · exact fun h => ⟨List.mem_cons_of_mem _ h.1, h.2⟩
      · rintro ⟨h1, h2⟩
        rcases List.mem_cons.mp h1 with rfl | h1
        · exact absurd hx h2
        · exact ⟨h1, h2⟩
    · rw [jsDedupAux, if_neg hx]
      by_cases hax : a = x
      · subst hax
        simp [hx]
      · simp only [List.mem_cons, ih, hax, false_or]

theorem nodup_jsDedupAux {α : Type} [DecidableEq α] :
    ∀ (l seen : List α), (jsDedupAux l seen).Nodup := by
  intro l
  induction l with
  | nil => intro seen; simp [jsDedupAux]
  | cons x xs ih =>
    intro seen
    by_cases hx : x ∈ seen
    · rw [jsDedupAux, if_pos hx]; exact ih seen
    · rw [jsDedupAux, if_neg hx]
      refine List.nodup_cons.mpr ⟨fun hc => ?_, ih (x :: seen)⟩
      exact ((mem_jsDedupAux x xs (x :: seen)).mp hc).2 (List.mem_cons_self x seen)

theorem mem_jsDedup {α : Type} [DecidableEq α] (a : α) (l : List α) :
    a ∈ jsDedup l ↔ a ∈ l := by
  rw [jsDedup, mem_jsDedupAux]
  simp

theorem nodup_jsDedup {α : Type} [DecidableEq α] (l : List α) :
    (jsDedup l).Nodup := nodup_jsDedupAux l []

theorem length_jsDedupAux_le {α : Type} [DecidableEq α] :
    ∀ (l seen : List α), (jsDedupAux l seen).length ≤ l.length := by
  intro l
  induction l with
  | nil => intro seen; simp [jsDedupAux]
  | cons x xs ih =>
    intro seen
    by_cases hx : x ∈ seen
    · rw [jsDedupAux, if_pos hx]
      exact Nat.le_succ_of_le (ih seen)
    · rw [jsDedupAux, if_neg hx]
      simpa using Nat.succ_le_succ (ih (x :: seen))

theorem length_jsDedup_le {α : Type} [DecidableEq α] (l : List α) :
    (jsDedup l).length ≤ l.length := length_jsDedupAux_le l []

theorem mem_orderedPairs {α : Type} (a b : α) :
    ∀ l : List α, (a, b) ∈ orderedPairs l → a ∈ l ∧ b ∈ l := by
  intro l
  induction l with
  | nil => simp [orderedPairs]
  | cons x xs ih =>
    intro h
    rw [orderedPairs, List.mem_append] at h
    rcases h with h | h
    · rcases List.mem_map.mp h with ⟨y, hy, hxy⟩
      obtain ⟨rfl, rfl⟩ := Prod.mk.injEq .. ▸ hxy
      exact ⟨List.mem_cons_self _ _, List.mem_cons_of_mem _ hy⟩
    · exact ⟨List.mem_cons_of_mem _ (ih h).1, List.mem_cons_of_mem _ (ih h).2⟩

theorem ne_of_mem_orderedPairs {α : Type} (a b : α) :
    ∀ l : List α, l.Nodup → (a, b) ∈ orderedPairs l → a ≠ b := by
  intro l
  induction l with
  | nil => simp [orderedPairs]
  | cons x xs ih =>
    intro hnd h
    rw [orderedPairs, List.mem_append] at h
    rcases List.nodup_cons.mp hnd with ⟨hx, hxs⟩
    rcases h with h | h
    · rcases List.mem_map.mp h with ⟨y, hy, hxy⟩
      obtain ⟨rfl, rfl⟩ := Prod.mk.injEq .. ▸ hxy
      exact fun hc => hx (hc ▸ hy)
    · exact ih hxs h

/-! ### Matrix access lemmas -/

theorem getD_set_ne {α : Type} (l : List α) (i x : ℕ) (a dflt : α) (h : x ≠ i) :
    (l.set i a).getD x dflt = l.getD x dflt := by
  simp [List.getD_eq_getElem?_getD, List.getElem?_set_ne (Ne.symm h)]

theorem getD_set_self {α : Type} (l : List α) (i : ℕ) (a dflt : α) (h : i < l.length) :
    (l.set i a).getD i dflt = a := by
  simp [List.getD_eq_getElem?_getD, List.getElem?_set_self h]

theorem length_mset (d : Mat) (i j : ℕ) (v : ℚ) : (mset d i j v).length = d.length := by
  simp [mset]

theorem mget_mset_ne (d : Mat) (i j x y : ℕ) (v : ℚ) (h : x ≠ i ∨ y ≠ j) :
    mget (mset d i j v) x y = mget d x y := by
  by_cases hx : x = i
  · subst hx
    have hy : y ≠ j := by tauto
    by_cases hi : x < d.length
    · unfold mget mset
      rw [getD_set_self _ _ _ _ hi]
      exact getD_set_ne _ _ _ _ _ hy
    · unfold mget mset
      rw [List.set_eq_of_length_le (Nat.le_of_not_lt hi)]
  · unfold mget mset
    rw [getD_set_ne _ _ _ _ _ hx]

theorem mget_mset_self (d : Mat) (i j : ℕ) (v : ℚ) (hi : i < d.length)
    (hj : j < (d.getD i []).length) :
    mget (mset d i j v) i j = v := by
  unfold mget mset
  rw [getD_set_self _ _ _ _ hi, getD_set_self _ _ _ _ hj]

/-- A matrix is square of side n: n rows, each of length n. -/
def SquareMat (d : Mat) (n : ℕ) : Prop := d.length = n ∧ ∀ row ∈ d, row.length = n

theorem squareMat_mset (d : Mat) (i j : ℕ) (v : ℚ) (n : ℕ) (h : SquareMat d n) :
    SquareMat (mset d i j v) n := by
  by_cases hi : i < d.length
  · refine ⟨by simp [mset, h.1], ?_⟩
    intro row hrow
    rcases List.mem_or_eq_of_mem_set hrow with hmem | heq
    · exact h.2 row hmem
    · have hrow_i : d.getD i [] = d[i] := by
        rw [List.getD_eq_getElem?_getD, List.getElem?_eq_getElem hi]
        rfl
      have : (d.getD i []).length = n := by
        rw [hrow_i]
        exact h.2 _ (List.getElem_mem hi)
      rw [heq]
      simpa using this
  · unfold mset
    rw [List.set_eq_of_length_le (Nat.le_of_not_lt hi)]
    exact h

/-! ### The closest-pair scan always finds a pair of active indices -/

theorem minStep_isSome (d : Mat) (acc : Option (ℕ × ℕ × ℚ)) (p : ℕ × ℕ) :
    (minStep d acc p).isSome := by
  unfold minStep
  cases acc with
  | none => rfl
  | some b =>
    dsimp only
    split <;> rfl

theorem foldl_minStep_isSome (d : Mat) :
    ∀ (ps : List (ℕ × ℕ)) (acc : Option (ℕ × ℕ × ℚ)), acc.isSome = true →
      (ps.foldl (minStep d) acc).isSome = true := by
  intro ps
  induction ps with
  | nil => intro acc h; exact h
  | cons p rest ih => intro acc _; exact ih _ (minStep_isSome d acc p)

theorem findMinPair_isSome (d : Mat) (act : List ℕ) (h : 2 ≤ act.length) :
    (findMinPair d act).isSome = true := by
  match act, h with
  | a :: b :: rest, _ =>
    unfold findMinPair
    rw [orderedPairs]
    simp only [List.map_cons, List.cons_append, List.foldl_cons]
    exact foldl_minStep_isSome d _ _ (minStep_isSome d none (a, b))

theorem foldl_minStep_mem (d : Mat) :
    ∀ (ps : List (ℕ × ℕ)) (acc : Option (ℕ × ℕ × ℚ)) (b : ℕ × ℕ × ℚ),
      ps.foldl (minStep d) acc = some b →
      acc = some b ∨ ∃ p ∈ ps, b = (p.1, p.2, mget d p.1 p.2) := by
  intro ps
  induction ps with
  | nil => intro acc b h; exact Or.inl h
  | cons p rest ih =>
    intro acc b h
    rcases ih _ b h with h2 | ⟨q, hq, rfl⟩
    · unfold minStep at h2
      cases acc with
      | none =>
        right
        exact ⟨p, List.mem_cons_self _ _, (Option.some.inj h2).symm⟩
      | some c =>
        dsimp only at h2
        split at h2
        · right
          exact ⟨p, List.mem_cons_self _ _, (Option.some.inj h2).symm⟩
        · left
          exact h2
    · right
      exact ⟨q, List.mem_cons_of_mem _ hq, rfl⟩

theorem findMinPair_mem (d : Mat) (act : List ℕ) (i j : ℕ) (v : ℚ)
    (h : findMinPair d act = some (i, j, v)) :
    (i, j) ∈ orderedPairs act ∧ v = mget d i j := by
  rcases foldl_minStep_mem d (orderedPairs act) none (i, j, v) h with h2 | ⟨p, hp, heq⟩
  · exact absurd h2 (by simp)
  · obtain ⟨pi, pj⟩ := p
    have h3 : i = pi ∧ j = pj ∧ v = mget d pi pj := by
      simpa [Prod.ext_iff] using heq
    obtain ⟨rfl, rfl, rfl⟩ := h3
    exact ⟨hp, rfl⟩

/-! ### One loop iteration: effect on the active set and the dendrogram -/

theorem length_filter_ne {α : Type} [DecidableEq α] :
    ∀ (l : List α) (a : α), l.Nodup → a ∈ l →
      (l.filter (fun c => c ≠ a)).length = l.length - 1 := by
  intro l
  induction l with
  | nil => intro a _ ha; cases ha
  | cons x xs ih =>
    intro a hnd ha
    rcases List.nodup_cons.mp hnd with ⟨hx, hxs⟩
    rcases List.mem_cons.mp ha with rfl | ha
    · rw [List.filter_cons_of_neg (by simp)]
      have hself : xs.filter (fun c => c ≠ a) = xs :=
        List.filter_eq_self.mpr (fun b hb => by
          simp only [ne_eq, decide_eq_true_eq]
          exact fun hc => hx (hc ▸ hb))
      rw [hself]
      simp
    · have hxa : x ≠ a := fun hc => hx (hc ▸ ha)
      rw [List.filter_cons_of_pos (by simpa using hxa)]
      have hlen := ih a hxs ha
      have hpos : 0 < xs.length := List.length_pos.mpr (List.ne_nil_of_mem ha)
      simp only [List.length_cons]
      omega

theorem hcStep_effects (sqrtFn : ℚ → ℚ) (method : LinkageMethod) (st st2 : HCState)
    (hnd : st.active.Nodup) (h : hcStep sqrtFn method st = some st2) :
    st2.active.length = st.active.length - 1 ∧ st2.active.Nodup ∧
    st2.clusters.length = st.clusters.length + 1 ∧
    st2.callerMatrix = st.callerMatrix := by
  unfold hcStep at h
  cases hfind : findMinPair st.distances st.active with
  | none =>
    rw [hfind] at h
    exact absurd h (by simp)
  | some t =>
    rw [hfind] at h
    obtain ⟨minI, minJ, v⟩ := t
    simp only at h
    have hst2 := (Option.some.inj h).symm
    have hj : minJ ∈ st.active :=
      (mem_orderedPairs _ _ _ ((findMinPair_mem _ _ _ _ _ hfind).1)).2
    subst hst2
    refine ⟨length_filter_ne _ _ hnd hj, List.Nodup.filter _ hnd, by simp, rfl⟩

/-! ### The clustering loop and its length and frame invariants -/

theorem hcLoop_invariants (sqrtFn : ℚ → ℚ) (method : LinkageMethod) :
    ∀ (fuel : ℕ) (st : HCState), st.active.Nodup → st.active.length ≤ fuel + 1 →
      ((hcLoop sqrtFn method fuel st).clusters).length
          = st.clusters.length + (st.active.length - 1) ∧
        (hcLoop sqrtFn method fuel st).callerMatrix = st.callerMatrix := by
  intro fuel
  induction fuel with
  | zero =>
    intro st _ hle
    rw [hcLoop]
    exact ⟨by omega, rfl⟩
  | succ fuel ih =>
    intro st hnd hle
    rw [hcLoop]
    by_cases hgt : 1 < st.active.length
    · rw [if_pos hgt]
      have h2 : 2 ≤ st.active.length := hgt
      obtain ⟨t, ht⟩ := Option.isSome_iff_exists.mp (findMinPair_isSome _ _ h2)
      have hstep : ∃ st2, hcStep sqrtFn method st = some st2 := by
        unfold hcStep
        rw [ht]
        obtain ⟨minI, minJ, v⟩ := t
        exact ⟨_, rfl⟩
      obtain ⟨st2, hstep⟩ := hstep
      rw [hstep]
      obtain ⟨hlen, hnd2, hcl, hcm⟩ := hcStep_effects _ _ _ _ hnd hstep
      obtain ⟨ihlen, ihcm⟩ := ih st2 hnd2 (by omega)
      refine ⟨?_, by rw [ihcm, hcm]⟩
      rw [ihlen, hlen, hcl]
      omega
    · rw [if_neg hgt]
      push_neg at hgt
      exact ⟨by omega, rfl⟩

/-- C5: hierarchicalClustering terminates with exactly n - 1 merge
records for an n-row matrix when n is at least 2 (each loop iteration
retires exactly one active cluster, leaving one active cluster at the
end), and returns an empty dendrogram without attempting a merge when
n is less than 2.  Stated for every matrix, linkage method, and square
root function; the subtraction is natural, so the first conjunct also
covers n equal to 0 and 1. -/
theorem hierarchicalClustering_terminates (sqrtFn : ℚ → ℚ) (method : LinkageMethod) (m : Mat) :
    (hierarchicalClustering sqrtFn m method).length = m.length - 1 ∧
    (m.length < 2 → hierarchicalClustering sqrtFn m method = []) := by
  have hinit : (initState m).active.Nodup := by
    simp [initState, List.nodup_range]
  have hlen : (initState m).active.length ≤ m.length + 1 := by
    simp [initState]
  have hmain :=
    (hcLoop_invariants sqrtFn method m.length (initState m) hinit hlen).1
  have hres : (hierarchicalClustering sqrtFn m method).length = m.length - 1 := by
    unfold hierarchicalClustering hierarchicalClusteringRun
    rw [hmain]
    simp [initState]
  refine ⟨hres, fun hsmall => ?_⟩
  have : (hierarchicalClustering sqrtFn m method).length = 0 := by omega
  exact List.length_eq_zero.mp this

/-- Witness for C5 at concrete inputs: a 1-by-1 matrix yields the empty
dendrogram, and a 2-by-2 matrix yields exactly one merge record. -/
theorem hierarchicalClustering_terminates_witness :
    hierarchicalClustering id [[(0 : ℚ)]] LinkageMethod.average = [] ∧
    (hierarchicalClustering id [[(0 : ℚ), 1], [1, 0]] LinkageMethod.average).length = 1 :=
  ⟨(hierarchicalClustering_terminates id LinkageMethod.average [[(0 : ℚ)]]).2 (by decide),
   (hierarchicalClustering_terminates id LinkageMethod.average [[(0 : ℚ), 1], [1, 0]]).1⟩

/-- C9: the clustering engine never writes to the caller-supplied
matrix.  The embedding carries the caller's array and the engine's
working copy (made at line 66 of src/lib/clustering.ts) as separate
state fields; every matrix write of the loop targets the working copy,
and the caller's array at the end of the run is the one passed in. -/
theorem hierarchicalClustering_preserves_input (sqrtFn : ℚ → ℚ) (m : Mat)
    (method : LinkageMethod) :
    (hierarchicalClusteringRun sqrtFn m method).callerMatrix = m := by
  have hinit : (initState m).active.Nodup := by
    simp [initState, List.nodup_range]
  have hlen : (initState m).active.length ≤ m.length + 1 := by
    simp [initState]
  have h := (hcLoop_invariants sqrtFn method m.length (initState m) hinit hlen).2
  unfold hierarchicalClusteringRun
  rw [h]
  rfl

/-! ### Symmetry of the distance functions (C8 support) -/

theorem jsDedupAux_eq_self {α : Type} [DecidableEq α] :
    ∀ (l seen : List α), l.Nodup → (∀ a ∈ l, a ∉ seen) → jsDedupAux l seen = l := by
  intro l
  induction l with
  | nil => intro seen _ _; rfl
  | cons x xs ih =>
    intro seen hnd hdisj
    rcases List.nodup_cons.mp hnd with ⟨hx, hxs⟩
    rw [jsDedupAux, if_neg (hdisj x (List.mem_cons_self _ _))]
    congr 1
    refine ih (x :: seen) hxs (fun a ha hc => ?_)
    rcases List.mem_cons.mp hc with rfl | hc
    · exact hx ha
    · exact hdisj a (List.mem_cons_of_mem _ ha) hc

theorem jsDedup_eq_self {α : Type} [DecidableEq α] (l : List α) (h : l.Nodup) :
    jsDedup l = l := jsDedupAux_eq_self l [] h (by simp)

theorem jsDedup_append_perm {α : Type} [DecidableEq α] (l1 l2 : List α) :
    (jsDedup (l1 ++ l2)).Perm (jsDedup (l2 ++ l1)) := by
  rw [List.perm_ext_iff_of_nodup (nodup_jsDedup _) (nodup_jsDedup _)]
  intro a
  simp only [mem_jsDedup, List.mem_append]
  exact or_comm

theorem length_filter_mem_comm {α : Type} [DecidableEq α] (l1 l2 : List α)
    (h1 : l1.Nodup) (h2 : l2.Nodup) :
    (l1.filter (fun x => x ∈ l2)).length = (l2.filter (fun x => x ∈ l1)).length := by
  have e1 : ∀ (la lb : List α), la.Nodup →
      (la.filter (fun x => x ∈ lb)).length = (la.toFinset ∩ lb.toFinset).card := by
    intro la lb hla
    rw [← List.toFinset_card_of_nodup (List.Nodup.filter _ hla)]
    congr 1
    ext a
    simp [List.mem_filter]
  rw [e1 l1 l2 h1, e1 l2 l1 h2, Finset.inter_comm]

theorem nodup_wordSet (s : String) : (wordSet s).Nodup := nodup_jsDedup _

theorem defaultDistance_symm (a b : String) :
    defaultDistance a b = defaultDistance b a := by
  simp only [defaultDistance]
  rw [(jsDedup_append_perm (wordSet a) (wordSet b)).length_eq,
    jsDedup_eq_self ((wordSet a).filter (fun x => x ∈ wordSet b))
      (List.Nodup.filter _ (nodup_wordSet a)),
    jsDedup_eq_self ((wordSet b).filter (fun x => x ∈ wordSet a))
      (List.Nodup.filter _ (nodup_wordSet b)),
    length_filter_mem_comm _ _ (nodup_wordSet a) (nodup_wordSet b)]

theorem jaccardDistance_symm (a b : String) :
    jaccardDistance a b = jaccardDistance b a := by
  simp only [jaccardDistance]
  rw [(jsDedup_append_perm (wordSet a) (wordSet b)).length_eq,
    jsDedup_eq_self ((wordSet a).filter (fun x => x ∈ wordSet b))
      (List.Nodup.filter _ (nodup_wordSet a)),
    jsDedup_eq_self ((wordSet b).filter (fun x => x ∈ wordSet a))
      (List.Nodup.filter _ (nodup_wordSet b)),
    length_filter_mem_comm _ _ (nodup_wordSet a) (nodup_wordSet b)]

theorem tweetDistance_symm (a b : String) :
    tweetDistance a b = tweetDistance b a := by
  simp only [tweetDistance]
  rw [jsDedup_eq_self ((wordSet (jsToLower a)).filter (fun x => x ∈ wordSet (jsToLower b)))
      (List.Nodup.filter _ (nodup_wordSet (jsToLower a))),
    jsDedup_eq_self ((wordSet (jsToLower b)).filter (fun x => x ∈ wordSet (jsToLower a)))
      (List.Nodup.filter _ (nodup_wordSet (jsToLower b))),
    length_filter_mem_comm _ _ (nodup_wordSet (jsToLower a)) (nodup_wordSet (jsToLower b)),
    Nat.add_comm (wordSet (jsToLower a)).length (wordSet (jsToLower b)).length]

theorem lev_nil_right : ∀ xs : List Char, lev xs [] = xs.length := by
  intro xs
  cases xs with
  | nil => rw [lev]
  | cons x xs => rw [lev]

theorem lev_comm : ∀ (xs ys : List Char), lev xs ys = lev ys xs := by
  intro xs ys
  induction xs, ys using lev.induct with
  | case1 ys => rw [lev, lev_nil_right]
  | case2 x xs => rw [lev, lev_nil_right]
  | case3 xs y ys ih =>
    rw [lev, lev, if_pos rfl, if_pos rfl, ih]
  | case4 x xs y ys hne ih1 ih2 ih3 =>
    rw [lev, lev, if_neg hne, if_neg (fun hc => hne hc.symm), ih1, ih2, ih3]
    omega

theorem levenshteinDistance_symm (a b : String) :
    levenshteinDistance a b = levenshteinDistance b a := by
  simp only [levenshteinDistance]
  rw [Nat.max_comm, lev_comm]

theorem cosine_ite_symm (m1 m2 dot : ℚ) :
    (if m1 = 0 ∨ m2 = 0 then (1 : ℚ) else 1 - dot / (m1 * m2)) =
    (if m2 = 0 ∨ m1 = 0 then (1 : ℚ) else 1 - dot / (m2 * m1)) := by
  by_cases h : m1 = 0 ∨ m2 = 0
  · rw [if_pos h, if_pos (Or.symm h)]
  · rw [if_neg h, if_neg (fun hc => h (Or.symm hc)), mul_comm]

theorem cosineDistance_symm (sqrtFn : ℚ → ℚ) (a b : String) :
    cosineDistance sqrtFn a b = cosineDistance sqrtFn b a := by
  simp only [cosineDistance]
  have hzip : ∀ (l : List String) (f g : String → ℕ),
      ((l.map f).zip (l.map g)).map (fun p => ((p.1 : ℚ) * p.2)) =
        l.map (fun w => (f w : ℚ) * g w) := by
    intro l f g
    rw [List.zip_map', List.map_map]
    rfl
  have hsq : ∀ (l : List String) (f : String → ℕ),
      (l.map f).map (fun v : ℕ => ((v : ℚ) * v)) = l.map (fun w => (f w : ℚ) * f w) := by
    intro l f
    rw [List.map_map]
    rfl
  simp only [hzip, hsq]
  have hmul : (fun w => ((((splitWs b).filter (fun x => x = w)).length : ℚ) *
        (((splitWs a).filter (fun x => x = w)).length))) =
      (fun w => ((((splitWs a).filter (fun x => x = w)).length : ℚ) *
        (((splitWs b).filter (fun x => x = w)).length))) :=
    funext (fun w => mul_comm _ _)
  rw [hmul]
  have hsum : ∀ f : String → ℚ,
      ((jsDedup (splitWs b ++ splitWs a)).map f).sum =
        ((jsDedup (splitWs a ++ splitWs b)).map f).sum :=
    fun f => ((jsDedup_append_perm (splitWs b) (splitWs a)).map f).sum_eq
  rw [hsum, hsum, hsum]
  exact cosine_ite_symm _ _ _

/-- C8: every distance function of the metric library (default, jaccard,
levenshtein, and cosine for every square-root function) and the
clustering engine's tweetDistance is symmetric in its two string
arguments. -/
theorem distance_functions_symmetric :
    (∀ a b : String, defaultDistance a b = defaultDistance b a) ∧
    (∀ a b : String, jaccardDistance a b = jaccardDistance b a) ∧
    (∀ a b : String, levenshteinDistance a b = levenshteinDistance b a) ∧
    (∀ (sqrtFn : ℚ → ℚ) (a b : String),
      cosineDistance sqrtFn a b = cosineDistance sqrtFn b a) ∧
    (∀ a b : String, tweetDistance a b = tweetDistance b a) :=
  ⟨defaultDistance_symm, jaccardDistance_symm, levenshteinDistance_symm,
    cosineDistance_symm, tweetDistance_symm⟩

/-! ### C2: the spec's formula for the default metric versus the code -/

/-- Modelled from the spec: tokenize both strings case-sensitively (as
received) on whitespace into sets A and B; the distance is the card of
the union minus the card of the intersection, over the card of the
union, and 1 when both token sets are empty.  Token sets are
represented as first-seen dedup lists, with membership-based union and
intersection. -/
def specUnionFormula (t1 t2 : String) : ℚ :=
  let A := wordSet t1
  let B := wordSet t2
  let union := jsDedup (A ++ B)
  let inter := A.filter (fun x => x ∈ B)
  if union.length = 0 then 1
  else ((union.length : ℚ) - inter.length) / union.length

/-- The formula tweetDistance actually implements: lowercase both
strings, tokenize into sets A and B, and return the sum of the two set
sizes minus the intersection size, over the sum of the two set sizes,
with 1 when both sets are empty. -/
def lowercaseSumFormula (t1 t2 : String) : ℚ :=
  let A := wordSet (jsToLower t1)
  let B := wordSet (jsToLower t2)
  let inter := A.filter (fun x => x ∈ B)
  let total := A.length + B.length
  if total = 0 then 1
  else ((total : ℚ) - inter.length) / total

/-- C2 counterexample: on the pair of identical one-word strings "a",
the claimed formula gives 0 (identical token sets are at distance 0)
and defaultDistance follows it, but tweetDistance returns 1/2, so the
claim that both metrics compute the claimed formula is false. -/
theorem claimC2_counterexample :
    tweetDistance "a" "a" = 1 / 2 ∧
    specUnionFormula "a" "a" = 0 ∧
    defaultDistance "a" "a" = 0 ∧
    tweetDistance "a" "a" ≠ specUnionFormula "a" "a" := by
  have h1 : tweetDistance "a" "a" = 1 / 2 := by
    norm_num [tweetDistance, show wordSet (jsToLower "a") = ["a"] from by decide,
      jsDedup, jsDedupAux]
  have h2 : specUnionFormula "a" "a" = 0 := by
    norm_num [specUnionFormula, show wordSet "a" = ["a"] from by decide,
      jsDedup, jsDedupAux]
  have h3 : defaultDistance "a" "a" = 0 := by
    norm_num [defaultDistance, show wordSet "a" = ["a"] from by decide,
      jsDedup, jsDedupAux]
  exact ⟨h1, h2, h3, by rw [h1, h2]; norm_num⟩

/-- C2 amended: defaultDistance computes exactly the claimed
case-sensitive union formula (including the value 1 on two empty token
sets), while tweetDistance lowercases both strings before tokenizing
and divides by the sum of the two set sizes instead of the union size
(with 1 when both sets are empty). -/
theorem default_and_tweet_distance_formulas (t1 t2 : String) :
    defaultDistance t1 t2 = specUnionFormula t1 t2 ∧
    tweetDistance t1 t2 = lowercaseSumFormula t1 t2 := by
  constructor
  · simp only [defaultDistance, specUnionFormula]
    rw [jsDedup_eq_self ((wordSet t1).filter (fun x => x ∈ wordSet t2))
      (List.Nodup.filter _ (nodup_wordSet t1))]
  · simp only [tweetDistance, lowercaseSumFormula]
    rw [jsDedup_eq_self ((wordSet (jsToLower t1)).filter (fun x => x ∈ wordSet (jsToLower t2)))
      (List.Nodup.filter _ (nodup_wordSet (jsToLower t1)))]

/-! ### C4: shape of the assignment formClusters returns -/

theorem jsDedupAux_map {α β : Type} [DecidableEq α] [DecidableEq β] (f : α → β) :
    ∀ (l seen : List α),
      (∀ a, a ∈ l → ∀ b, b ∈ l ∨ b ∈ seen → f a = f b → a = b) →
      jsDedupAux (l.map f) (seen.map f) = (jsDedupAux l seen).map f := by
  intro l
  induction l with
  | nil => intro seen _; rfl
  | cons x xs ih =>
    intro seen hinj
    rw [List.map_cons, jsDedupAux, jsDedupAux]
    by_cases hx : x ∈ seen
    · rw [if_pos hx, if_pos (List.mem_map_of_mem f hx)]
      exact ih seen (fun a ha b hb =>
        hinj a (List.mem_cons_of_mem _ ha) b
          (hb.imp (List.mem_cons_of_mem _) (fun h => h)))
    · have hfx : f x ∉ seen.map f := by
        intro hc
        rcases List.mem_map.mp hc with ⟨b, hb, hfb⟩
        exact hx ((hinj x (List.mem_cons_self _ _) b (Or.inr hb) hfb.symm) ▸ hb)
      rw [if_neg hx, if_neg hfx, List.map_cons]
      congr 1
      have hrw : (f x :: seen.map f) = (x :: seen).map f := rfl
      rw [hrw]
      refine ih (x :: seen) (fun a ha b hb hfab => ?_)
      refine hinj a (List.mem_cons_of_mem _ ha) b ?_ hfab
      rcases hb with hb | hb
      · exact Or.inl (List.mem_cons_of_mem _ hb)
      · rcases List.mem_cons.mp hb with rfl | hb
        · exact Or.inl (List.mem_cons_self _ _)
        · exact Or.inr hb

theorem jsDedup_map {α β : Type} [DecidableEq α] [DecidableEq β] (f : α → β) (l : List α)
    (hinj : ∀ a ∈ l, ∀ b ∈ l, f a = f b → a = b) :
    jsDedup (l.map f) = (jsDedup l).map f := by
  have h := jsDedupAux_map f l []
    (fun a ha b hb => by
      rcases hb with hb | hb
      · exact hinj a ha b hb
      · cases hb)
  rw [jsDedup, jsDedup]
  exact h

theorem map_indexOf_range {α : Type} [DecidableEq α] :
    ∀ d : List α, d.Nodup → d.map (fun a => d.indexOf a) = List.range d.length := by
  intro d
  induction d with
  | nil => intro _; rfl
  | cons x xs ih =>
    intro hnd
    rcases List.nodup_cons.mp hnd with ⟨hx, hxs⟩
    rw [List.map_cons, List.indexOf_cons_self]
    have hmap : xs.map (fun a => (x :: xs).indexOf a) = xs.map (fun a => xs.indexOf a + 1) :=
      List.map_congr_left (fun a ha => by
        rw [List.indexOf_cons_ne _ (fun hc => hx (by rw [hc]; exact ha))])
    rw [hmap,
      show xs.map (fun a => xs.indexOf a + 1)
          = (xs.map (fun a => xs.indexOf a)).map Nat.succ from by
        rw [List.map_map]; rfl,
      ih hxs, List.length_cons, List.range_succ_eq_map]

theorem jsDedup_map_indexOf {α : Type} [DecidableEq α] (l : List α) :
    jsDedup (l.map (fun a => (jsDedup l).indexOf a)) =
      List.range (jsDedup l).length := by
  rw [jsDedup_map _ l
      (fun a ha b hb heq =>
        (List.indexOf_inj ((mem_jsDedup a l).mpr ha) ((mem_jsDedup b l).mpr hb)).mp heq),
    map_indexOf_range _ (nodup_jsDedup l)]

theorem length_assignStep (linkage : List ClusterNode) (n : ℕ) (asg : List ℕ)
    (merge : ClusterNode) : (assignStep linkage n asg merge).length = asg.length := by
  unfold assignStep
  dsimp only
  split
  · split
    · simp
    · simp
  · split
    · simp
    · rfl

theorem length_foldl_assignStep (linkage : List ClusterNode) (n : ℕ) :
    ∀ (merges : List ClusterNode) (asg : List ℕ),
      (merges.foldl (assignStep linkage n) asg).length = asg.length := by
  intro merges
  induction merges with
  | nil => intro asg; rfl
  | cons m rest ih =>
    intro asg
    rw [List.foldl_cons, ih, length_assignStep]

theorem length_rawAssignments (linkage : List ClusterNode) (k n : ℕ) :
    (rawAssignments linkage k n).length = n := by
  simp only [rawAssignments]
  rw [length_foldl_assignStep, List.length_range]

/-- C4 amended: for every dendrogram and every k and n, formClusters
returns an assignment of length n whose distinct ids, in first-seen
order, are exactly 0 up to one less than their number (dense
renumbering); the number of distinct ids is at most n, but it is not in
general bounded by k (see the counterexample theorem). -/
theorem formClusters_dense_renumbering (linkage : List ClusterNode) (k n : ℕ) :
    (formClusters linkage k n).length = n ∧
    jsDedup (formClusters linkage k n) =
      List.range (jsDedup (formClusters linkage k n)).length ∧
    (jsDedup (formClusters linkage k n)).length ≤ n := by
  have h1 : jsDedup (formClusters linkage k n) =
      List.range (jsDedup (rawAssignments linkage k n)).length :=
    jsDedup_map_indexOf (rawAssignments linkage k n)
  refine ⟨?_, ?_, ?_⟩
  · simp only [formClusters]
    rw [List.length_map, length_rawAssignments]
  · rw [h1, List.length_range]
  · rw [h1, List.length_range]
    have h2 := length_jsDedup_le (rawAssignments linkage k n)
    rw [length_rawAssignments] at h2
    exact h2

/-! ### C1: merge records only ever cite original document indices -/

theorem hcLoop_children_bound (sqrtFn : ℚ → ℚ) (method : LinkageMethod) (N : ℕ) :
    ∀ (fuel : ℕ) (st : HCState), (∀ c ∈ st.active, c < N) →
      (∀ node ∈ st.clusters, node.left < N ∧ node.right < N) →
      ∀ node ∈ (hcLoop sqrtFn method fuel st).clusters,
        node.left < N ∧ node.right < N := by
  intro fuel
  induction fuel with
  | zero =>
    intro st _ hcl
    rw [hcLoop]
    exact hcl
  | succ fuel ih =>
    intro st hact hcl
    rw [hcLoop]
    by_cases hgt : 1 < st.active.length
    · rw [if_pos hgt]
      cases hstep : hcStep sqrtFn method st with
      | none => exact hcl
      | some st2 =>
        unfold hcStep at hstep
        cases hfind : findMinPair st.distances st.active with
        | none =>
          rw [hfind] at hstep
          exact absurd hstep (by simp)
        | some t =>
          rw [hfind] at hstep
          obtain ⟨minI, minJ, v⟩ := t
          simp only at hstep
          have hmem := findMinPair_mem _ _ _ _ _ hfind
          have hi : minI ∈ st.active := (mem_orderedPairs _ _ _ hmem.1).1
          have hj : minJ ∈ st.active := (mem_orderedPairs _ _ _ hmem.1).2
          have hst2 := (Option.some.inj hstep).symm
          subst hst2
          refine ih _ (fun c hc => hact c (List.mem_of_mem_filter hc)) ?_
          intro node hnode
          simp only [List.mem_append, List.mem_singleton] at hnode
          rcases hnode with hnode | rfl
          · exact hcl node hnode
          · exact ⟨hact _ hi, hact _ hj⟩
    · rw [if_neg hgt]
      exact hcl

/-- Every merge record the engine produces cites only indices below n,
the number of documents: the source stores the representative original
indices minI and minJ of the merged clusters, and the extended running
index n plus the merge position, although computed at line 98, is never
stored. -/
theorem hierarchicalClustering_children_lt (sqrtFn : ℚ → ℚ) (m : Mat)
    (method : LinkageMethod) :
    ∀ node ∈ hierarchicalClustering sqrtFn m method,
      node.left < m.length ∧ node.right < m.length := by
  unfold hierarchicalClustering hierarchicalClusteringRun
  refine hcLoop_children_bound sqrtFn method m.length m.length (initState m) ?_ ?_
  · intro c hc
    simp only [initState] at hc
    exact List.mem_range.mp hc
  · intro node hnode
    simp [initState] at hnode

/-! ### The three-document scenario from the spec -/

/-- The three documents of the spec's clustering test scenario, with
cleaned text equal to the raw text. -/
def scenarioDocs : List Tweet :=
  [⟨"i love this", "i love this", "positive"⟩,
   ⟨"i love this", "i love this", "positive"⟩,
   ⟨"i hate this", "i hate this", "negative"⟩]

/-- The ground-truth labels of the scenario. -/
def scenarioLabels : List String := ["positive", "positive", "negative"]

theorem tweetDistance_love_love : tweetDistance "i love this" "i love this" = 1 / 2 := by
  simp only [tweetDistance]
  rw [show wordSet (jsToLower "i love this") = ["i", "love", "this"] from by decide,
    show jsDedup ((["i", "love", "this"] : List String).filter
      (fun w => w ∈ (["i", "love", "this"] : List String))) = ["i", "love", "this"] from by
        decide]
  norm_num

theorem tweetDistance_love_hate : tweetDistance "i love this" "i hate this" = 2 / 3 := by
  simp only [tweetDistance]
  rw [show wordSet (jsToLower "i love this") = ["i", "love", "this"] from by decide,
    show wordSet (jsToLower "i hate this") = ["i", "hate", "this"] from by decide,
    show jsDedup ((["i", "love", "this"] : List String).filter
      (fun w => w ∈ (["i", "hate", "this"] : List String))) = ["i", "this"] from by decide]
  norm_num

theorem scenarioMatrix_eval :
    createDistanceMatrix scenarioDocs = [[0, 1/2, 2/3], [1/2, 0, 2/3], [2/3, 2/3, 0]] := by
  norm_num [createDistanceMatrix, orderedPairs, mset, scenarioDocs,
    tweetDistance_love_love, tweetDistance_love_hate,
    show List.range 3 = [0, 1, 2] from by rfl,
    show (List.replicate 3 (List.replicate 3 (0:ℚ)))
      = [[0,0,0],[0,0,0],[0,0,0]] from by rfl,
    List.set]

theorem scenarioLinkage_eval :
    hierarchicalClustering id (createDistanceMatrix scenarioDocs) LinkageMethod.average
      = [⟨0, 1, 1/2, 2⟩, ⟨0, 2, 2/3, 3⟩] := by
  rw [scenarioMatrix_eval]
  norm_num [hierarchicalClustering, hierarchicalClusteringRun, initState, hcLoop, hcStep,
    findMinPair, orderedPairs, minStep, mget, mset, updateRow, updateDist,
    show List.range 3 = [0, 1, 2] from by rfl]

/-- C1: in the dendrogram the engine actually returns, a merged cluster
is never referred to by an extended index.  On the spec's own
three-document scenario the second merge joins the cluster created by
the first merge (whose extended running index would be n + 0 = 3) with
document 2, yet the record stores left = 0, the representative original
index; and in general every child index of every record lies below n. -/
theorem mergeRecords_use_original_indices :
    hierarchicalClustering id (createDistanceMatrix scenarioDocs) LinkageMethod.average
      = [⟨0, 1, 1/2, 2⟩, ⟨0, 2, 2/3, 3⟩] ∧
    ((hierarchicalClustering id (createDistanceMatrix scenarioDocs)
        LinkageMethod.average).getD 1 ⟨0, 0, 0, 0⟩).left = 0 ∧
    ((hierarchicalClustering id (createDistanceMatrix scenarioDocs)
        LinkageMethod.average).getD 1 ⟨0, 0, 0, 0⟩).left ≠ 3 ∧
    (∀ (sqrtFn : ℚ → ℚ) (m : Mat) (method : LinkageMethod),
      ∀ node ∈ hierarchicalClustering sqrtFn m method,
        node.left < m.length ∧ node.right < m.length) := by
  refine ⟨scenarioLinkage_eval, ?_, ?_, hierarchicalClustering_children_lt⟩
  · rw [scenarioLinkage_eval]
    rfl
  · rw [scenarioLinkage_eval]
    decide

/-- Witness for the universally quantified part of the C1 theorem at a
concrete input: both records of the scenario dendrogram have children
below 3. -/
theorem mergeRecords_use_original_indices_witness :
    ∀ node ∈ hierarchicalClustering id (createDistanceMatrix scenarioDocs)
      LinkageMethod.average, node.left < 3 ∧ node.right < 3 := by
  have h := mergeRecords_use_original_indices.2.2.2 id
    (createDistanceMatrix scenarioDocs) LinkageMethod.average
  have hlen : (createDistanceMatrix scenarioDocs).length = 3 := by
    rw [scenarioMatrix_eval]
    rfl
  rw [hlen] at h
  exact h

/-- C3: on the spec's scenario the two identical documents are indeed
merged first, before either joins the third document, but not at merge
distance 0: tweetDistance, which the engine uses to build the matrix,
gives 1/2 on identical texts (only defaultDistance gives 0), so the
first merge records distance 1/2; and extracting two clusters yields
the assignment [0, 1, 0], which separates the two identical documents
and groups document 0 with the opposite-label document 2, so the
accuracy is 2/3 rather than 1. -/
theorem scenario_merge_and_accuracy :
    hierarchicalClustering id (createDistanceMatrix scenarioDocs) LinkageMethod.average
      = [⟨0, 1, 1/2, 2⟩, ⟨0, 2, 2/3, 3⟩] ∧
    tweetDistance "i love this" "i love this" = 1 / 2 ∧
    defaultDistance "i love this" "i love this" = 0 ∧
    formClusters [⟨0, 1, 1/2, 2⟩, ⟨0, 2, 2/3, 3⟩] 2 3 = [0, 1, 0] ∧
    calculateAccuracy [0, 1, 0] scenarioLabels = 2 / 3 ∧
    (2 / 3 : ℚ) ≠ 1 := by
  have hdef : defaultDistance "i love this" "i love this" = 0 := by
    simp only [defaultDistance]
    rw [show wordSet "i love this" = ["i", "love", "this"] from by decide,
      show jsDedup ((["i", "love", "this"] : List String)
        ++ (["i", "love", "this"] : List String)) = ["i", "love", "this"] from by decide,
      show jsDedup ((["i", "love", "this"] : List String).filter
        (fun x => x ∈ (["i", "love", "this"] : List String)))
        = ["i", "love", "this"] from by decide]
    norm_num
  have hform : formClusters [⟨0, 1, 1/2, 2⟩, ⟨0, 2, 2/3, 3⟩] 2 3 = [0, 1, 0] := by
    norm_num [formClusters, rawAssignments, assignStep, jsDedup, jsDedupAux,
      List.indexOf, List.findIdx, List.findIdx.go, List.set, cond_eq_if, beq_iff_eq,
      ClusterNode.mk.injEq,
      show List.range 3 = [0, 1, 2] from by rfl]
  have hacc : calculateAccuracy [0, 1, 0] scenarioLabels = 2 / 3 := by
    norm_num [calculateAccuracy, scenarioLabels, buildClusterLabels, bumpEntry,
      dominantLabel, List.find?,
      show ("positive" : String) ≠ "negative" from by decide,
      show ("negative" : String) ≠ "positive" from by decide]
  exact ⟨scenarioLinkage_eval, tweetDistance_love_love, hdef, hform, hacc, by norm_num⟩

/-! ### C4 counterexample: more than k distinct ids -/

/-- Four documents forming two identical pairs. -/
def fourDocs : List Tweet :=
  [⟨"a b", "a b", "x"⟩, ⟨"a b", "a b", "x"⟩,
   ⟨"c d", "c d", "y"⟩, ⟨"c d", "c d", "y"⟩]

theorem tweetDistance_ab_ab : tweetDistance "a b" "a b" = 1 / 2 := by
  simp only [tweetDistance]
  rw [show wordSet (jsToLower "a b") = ["a", "b"] from by decide,
    show jsDedup ((["a", "b"] : List String).filter
      (fun w => w ∈ (["a", "b"] : List String))) = ["a", "b"] from by decide]
  norm_num

theorem tweetDistance_ab_cd : tweetDistance "a b" "c d" = 1 := by
  simp only [tweetDistance]
  rw [show wordSet (jsToLower "a b") = ["a", "b"] from by decide,
    show wordSet (jsToLower "c d") = ["c", "d"] from by decide,
    show jsDedup ((["a", "b"] : List String).filter
      (fun w => w ∈ (["c", "d"] : List String))) = [] from by decide]
  norm_num

theorem tweetDistance_cd_cd : tweetDistance "c d" "c d" = 1 / 2 := by
  simp only [tweetDistance]
  rw [show wordSet (jsToLower "c d") = ["c", "d"] from by decide,
    show jsDedup ((["c", "d"] : List String).filter
      (fun w => w ∈ (["c", "d"] : List String))) = ["c", "d"] from by decide]
  norm_num

theorem fourDocsMatrix_eval :
    createDistanceMatrix fourDocs
      = [[0, 1/2, 1, 1], [1/2, 0, 1, 1], [1, 1, 0, 1/2], [1, 1, 1/2, 0]] := by
  norm_num [createDistanceMatrix, orderedPairs, mset, fourDocs,
    tweetDistance_ab_ab, tweetDistance_ab_cd, tweetDistance_cd_cd,
    show List.range 4 = [0, 1, 2, 3] from by rfl,
    show (List.replicate 4 (List.replicate 4 (0:ℚ)))
      = [[0,0,0,0],[0,0,0,0],[0,0,0,0],[0,0,0,0]] from by rfl,
    List.set]

theorem fourDocsLinkage_eval :
    hierarchicalClustering id (createDistanceMatrix fourDocs) LinkageMethod.average
      = [⟨0, 1, 1/2, 2⟩, ⟨2, 3, 1/2, 2⟩, ⟨0, 2, 1, 4⟩] := by
  rw [fourDocsMatrix_eval]
  norm_num [hierarchicalClustering, hierarchicalClusteringRun, initState, hcLoop, hcStep,
    findMinPair, orderedPairs, minStep, mget, mset, updateRow, updateDist,
    show List.range 4 = [0, 1, 2, 3] from by rfl]

/-- C4 counterexample: clustering the four documents of fourDocs (two
identical pairs) and extracting k = 2 clusters (2 is between 2 and
n = 4) yields the assignment [0, 1, 0, 2], which uses three distinct
cluster ids, more than the requested k = 2: the first merge is not
among the selected top k - 1 merges, so document 1 keeps its stale
identity id. -/
theorem formClusters_exceeds_k_counterexample :
    hierarchicalClustering id (createDistanceMatrix fourDocs) LinkageMethod.average
      = [⟨0, 1, 1/2, 2⟩, ⟨2, 3, 1/2, 2⟩, ⟨0, 2, 1, 4⟩] ∧
    formClusters [⟨0, 1, 1/2, 2⟩, ⟨2, 3, 1/2, 2⟩, ⟨0, 2, 1, 4⟩] 2 4 = [0, 1, 0, 2] ∧
    (jsDedup [0, 1, 0, 2]).length = 3 ∧
    ¬((jsDedup ([0, 1, 0, 2] : List ℕ)).length ≤ 2) ∧
    2 ≤ 2 ∧ 2 ≤ 4 := by
  have hform : formClusters [⟨0, 1, 1/2, 2⟩, ⟨2, 3, 1/2, 2⟩, ⟨0, 2, 1, 4⟩] 2 4
      = [0, 1, 0, 2] := by
    norm_num [formClusters, rawAssignments, assignStep, jsDedup, jsDedupAux,
      List.indexOf, List.findIdx, List.findIdx.go, List.set, cond_eq_if, beq_iff_eq,
      ClusterNode.mk.injEq,
      show Int.toNat 2 = 2 from rfl,
      show List.range 4 = [0, 1, 2, 3] from by rfl]
  exact ⟨fourDocsLinkage_eval, hform, by decide, by decide, by decide, by decide⟩

/-! ### C6: the distance update implements the closed-form linkage rules -/

/-- Modelled from the spec: the closed-form Lance-Williams update rules.
For clusters i and j merging, and a remaining cluster k: average is the
size-weighted mean of the two old distances; complete is their maximum;
ward is the square root (sqrtFn) of the weighted combination of the
squared distances given in the spec. -/
def specLinkageRule (sqrtFn : ℚ → ℚ) (method : LinkageMethod)
    (dik djk dij : ℚ) (si sj sk : ℕ) : ℚ :=
  match method with
  | .average => (dik * si + djk * sj) / ((si : ℚ) + sj)
  | .complete => max dik djk
  | .ward =>
    sqrtFn ((((si : ℚ) + sk) * dik ^ 2 + ((sj : ℚ) + sk) * djk ^ 2
      - (sk : ℚ) * dij ^ 2) / ((si : ℚ) + sj + sk))

theorem updateDist_eq_spec (sqrtFn : ℚ → ℚ) (method : LinkageMethod)
    (dik djk dij : ℚ) (si sj sk : ℕ) :
    updateDist sqrtFn method dik djk dij si sj sk
      = specLinkageRule sqrtFn method dik djk dij si sj sk := by
  cases method with
  | average => rfl
  | complete => rfl
  | ward =>
    simp only [updateDist, specLinkageRule]
    congr 1
    ring

theorem row_length_of_squareMat (d : Mat) (N i : ℕ) (h : SquareMat d N) (hi : i < N) :
    (d.getD i []).length = N := by
  have hi2 : i < d.length := by rw [h.1]; exact hi
  have : d.getD i [] = d[i] := by
    rw [List.getD_eq_getElem?_getD, List.getElem?_eq_getElem hi2]
    rfl
  rw [this]
  exact h.2 _ (List.getElem_mem hi2)

/-- The per-k body of the distance update loop, as a value of the
matrix it reads. -/
def rowVal (sqrtFn : ℚ → ℚ) (method : LinkageMethod) (sizes : List ℕ)
    (minI minJ : ℕ) (d : Mat) (k : ℕ) : ℚ :=
  updateDist sqrtFn method (mget d minI k) (mget d minJ k) (mget d minI minJ)
    (sizes.getD minI 0) (sizes.getD minJ 0) (sizes.getD k 0)

theorem updateRow_eq_foldStep (sqrtFn : ℚ → ℚ) (method : LinkageMethod) (sizes : List ℕ)
    (minI minJ : ℕ) (d : Mat) (ks : List ℕ) :
    updateRow sqrtFn method sizes minI minJ d ks =
      ks.foldl (fun d k =>
        mset (mset d minI k (rowVal sqrtFn method sizes minI minJ d k)) k minI
          (rowVal sqrtFn method sizes minI minJ d k)) d := rfl

theorem updateRow_preserves (sqrtFn : ℚ → ℚ) (method : LinkageMethod) (sizes : List ℕ)
    (minI minJ : ℕ) :
    ∀ (ks : List ℕ) (d : Mat) (x y : ℕ),
      (∀ k ∈ ks, (x ≠ minI ∨ y ≠ k) ∧ (x ≠ k ∨ y ≠ minI)) →
      mget (updateRow sqrtFn method sizes minI minJ d ks) x y = mget d x y := by
  intro ks
  induction ks with
  | nil => intro d x y _; rfl
  | cons k0 rest ih =>
    intro d x y hcond
    rw [updateRow_eq_foldStep, List.foldl_cons, ← updateRow_eq_foldStep]
    rw [ih _ x y (fun k hk => hcond k (List.mem_cons_of_mem _ hk))]
    obtain ⟨h1, h2⟩ := hcond k0 (List.mem_cons_self _ _)
    rw [mget_mset_ne _ _ _ _ _ _ h2, mget_mset_ne _ _ _ _ _ _ h1]

theorem squareMat_updateRow (sqrtFn : ℚ → ℚ) (method : LinkageMethod) (sizes : List ℕ)
    (minI minJ : ℕ) (N : ℕ) :
    ∀ (ks : List ℕ) (d : Mat), SquareMat d N →
      SquareMat (updateRow sqrtFn method sizes minI minJ d ks) N := by
  intro ks
  induction ks with
  | nil => intro d h; exact h
  | cons k0 rest ih =>
    intro d h
    rw [updateRow_eq_foldStep, List.foldl_cons, ← updateRow_eq_foldStep]
    exact ih _ (squareMat_mset _ _ _ _ _ (squareMat_mset _ _ _ _ _ h))

theorem updateRow_entries (sqrtFn : ℚ → ℚ) (method : LinkageMethod) (sizes : List ℕ)
    (minI minJ : ℕ) (N : ℕ) (hiN : minI < N) (hij : minI ≠ minJ) :
    ∀ (ks : List ℕ) (d : Mat), SquareMat d N → ks.Nodup →
      (∀ k ∈ ks, k < N ∧ k ≠ minI ∧ k ≠ minJ) →
      ∀ k ∈ ks,
        mget (updateRow sqrtFn method sizes minI minJ d ks) minI k
          = rowVal sqrtFn method sizes minI minJ d k ∧
        mget (updateRow sqrtFn method sizes minI minJ d ks) k minI
          = rowVal sqrtFn method sizes minI minJ d k := by
  intro ks
  induction ks with
  | nil =>
    intro d _ _ _ k hk
    cases hk
  | cons k0 rest ih =>
    intro d hsq hnd hbound k hk
    rcases List.nodup_cons.mp hnd with ⟨hk0, hrest⟩
    obtain ⟨hk0N, hk0I, hk0J⟩ := hbound k0 (List.mem_cons_self _ _)
    have hone : updateRow sqrtFn method sizes minI minJ d (k0 :: rest)
        = updateRow sqrtFn method sizes minI minJ
            (mset (mset d minI k0 (rowVal sqrtFn method sizes minI minJ d k0)) k0 minI
              (rowVal sqrtFn method sizes minI minJ d k0)) rest := rfl
    rw [hone]
    set v := rowVal sqrtFn method sizes minI minJ d k0 with hv
    set d1 := mset (mset d minI k0 v) k0 minI v with hd1
    have hsq1 : SquareMat d1 N :=
      squareMat_mset _ _ _ _ _ (squareMat_mset _ _ _ _ _ hsq)
    have hdlen : minI < d.length := by rw [hsq.1]; exact hiN
    rcases List.mem_cons.mp hk with rfl | hkrest
    · constructor
      · rw [updateRow_preserves _ _ _ _ _ rest d1 minI k
          (fun k2 hk2 => ⟨Or.inr (fun hc => hk0 (hc ▸ hk2)), Or.inr hk0I⟩)]
        rw [hd1, mget_mset_ne _ _ _ _ _ _ (Or.inl (Ne.symm hk0I))]
        exact mget_mset_self _ _ _ _ hdlen
          (by rw [row_length_of_squareMat d N minI hsq hiN]; exact hk0N)
      · rw [updateRow_preserves _ _ _ _ _ rest d1 k minI
          (fun k2 hk2 => ⟨Or.inl hk0I, Or.inl (fun hc => hk0 (hc ▸ hk2))⟩)]
        rw [hd1]
        refine mget_mset_self _ _ _ _ ?_ ?_
        · rw [length_mset, hsq.1]
          exact hk0N
        · rw [mset, getD_set_ne _ _ _ _ _ hk0I,
            row_length_of_squareMat d N k hsq hk0N]
          exact hiN
    · have hval : rowVal sqrtFn method sizes minI minJ d1 k
          = rowVal sqrtFn method sizes minI minJ d k := by
        have hkk0 : k ≠ k0 := fun hc => hk0 (hc ▸ hkrest)
        unfold rowVal
        rw [hd1,
          mget_mset_ne _ _ _ _ _ _ (Or.inl (Ne.symm hk0I)),
          mget_mset_ne _ _ _ _ _ _ (Or.inr hkk0),
          mget_mset_ne _ _ _ _ _ _ (Or.inl (Ne.symm hk0J)),
          mget_mset_ne _ _ _ _ _ _ (Or.inl (Ne.symm hij)),
          mget_mset_ne _ _ _ _ _ _ (Or.inr (Ne.symm hij)),
          mget_mset_ne _ _ _ _ _ _ (Or.inr (Ne.symm hk0J))]
      obtain ⟨ha, hb⟩ := ih d1 hsq1 hrest
        (fun k2 hk2 => hbound k2 (List.mem_cons_of_mem _ hk2)) k hkrest
      exact ⟨by rw [ha, hval], by rw [hb, hval]⟩

/-- C6: after the merge of active clusters minI and minJ found by the
closest-pair scan, the engine replaces, for every remaining active
cluster k other than the survivor minI, both matrix entries between
minI and k by exactly the closed-form rule of the selected linkage
method evaluated on the pre-merge distances and pre-merge sizes
(size-weighted mean for average, maximum for complete, the square-root
combination for ward); the surviving cluster's size becomes the sum of
the two pre-merge sizes, and minJ leaves the active set. -/
theorem linkage_update_rule (sqrtFn : ℚ → ℚ) (method : LinkageMethod) (N : ℕ)
    (st st2 : HCState) (minI minJ : ℕ) (minDist : ℚ)
    (hfind : findMinPair st.distances st.active = some (minI, minJ, minDist))
    (hstep : hcStep sqrtFn method st = some st2)
    (hnd : st.active.Nodup)
    (hact : ∀ a ∈ st.active, a < N)
    (hsq : SquareMat st.distances N)
    (hsz : st.sizes.length = N) :
    minJ ∉ st2.active ∧
    st2.sizes.getD minI 0 = st.sizes.getD minI 0 + st.sizes.getD minJ 0 ∧
    (∀ k ∈ st2.active, k ≠ minI →
      mget st2.distances minI k
        = specLinkageRule sqrtFn method (mget st.distances minI k)
            (mget st.distances minJ k) (mget st.distances minI minJ)
            (st.sizes.getD minI 0) (st.sizes.getD minJ 0) (st.sizes.getD k 0) ∧
      mget st2.distances k minI
        = specLinkageRule sqrtFn method (mget st.distances minI k)
            (mget st.distances minJ k) (mget st.distances minI minJ)
            (st.sizes.getD minI 0) (st.sizes.getD minJ 0) (st.sizes.getD k 0)) := by
  unfold hcStep at hstep
  rw [hfind] at hstep
  dsimp only at hstep
  have hst2 := (Option.some.inj hstep).symm
  subst hst2
  have hmem := findMinPair_mem _ _ _ _ _ hfind
  have hi : minI ∈ st.active := (mem_orderedPairs _ _ _ hmem.1).1
  have hj : minJ ∈ st.active := (mem_orderedPairs _ _ _ hmem.1).2
  have hij : minI ≠ minJ := ne_of_mem_orderedPairs _ _ _ hnd hmem.1
  have hiN : minI < N := hact _ hi
  refine ⟨?_, ?_, ?_⟩
  · dsimp only
    intro hc
    have h1 := List.mem_filter.mp hc
    simp at h1
  · dsimp only
    exact getD_set_self _ _ _ _ (by rw [hsz]; exact hiN)
  · intro k hk hkI
    dsimp only at hk ⊢
    have hk1 := List.mem_filter.mp hk
    have hkks : k ∈ (st.active.filter (fun c => c ≠ minJ)).filter (fun c => c ≠ minI) := by
      rw [List.mem_filter]
      exact ⟨hk, by simpa using hkI⟩
    have hnks : ((st.active.filter (fun c => c ≠ minJ)).filter
        (fun c => c ≠ minI)).Nodup :=
      List.Nodup.filter _ (List.Nodup.filter _ hnd)
    have hbound : ∀ k2 ∈ (st.active.filter (fun c => c ≠ minJ)).filter
        (fun c => c ≠ minI), k2 < N ∧ k2 ≠ minI ∧ k2 ≠ minJ := by
      intro k2 hk2
      have h1 := List.mem_filter.mp hk2
      have h2 := List.mem_filter.mp h1.1
      exact ⟨hact _ h2.1, by simpa using h1.2, by simpa using h2.2⟩
    have hmain := updateRow_entries sqrtFn method st.sizes minI minJ N hiN hij
      _ st.distances hsq hnks hbound k hkks
    simp only [rowVal, updateDist_eq_spec] at hmain
    exact hmain

/-- A concrete mid-run clustering state with three active singleton
clusters, used to witness the linkage update rule. -/
def witnessState : HCState :=
  ⟨[[0, 1, 2], [1, 0, 3], [2, 3, 0]], [0, 1, 2], [1, 1, 1],
   [[0, 1, 2], [1, 0, 3], [2, 3, 0]], []⟩

/-- The state after one merge step on witnessState with average linkage:
clusters 0 and 1 merge at distance 1, and the distance from the merged
cluster to cluster 2 becomes (2 + 3) / 2 = 5/2. -/
def witnessState2 : HCState :=
  ⟨[[0, 1, 2], [1, 0, 3], [2, 3, 0]], [0, 2], [2, 1, 1],
   [[0, 1, 5/2], [1, 0, 3], [5/2, 3, 0]], [⟨0, 1, 1, 2⟩]⟩

/-- Witness for the linkage update rule at the concrete state
witnessState: all hypotheses are discharged by computation. -/
theorem linkage_update_rule_witness :
    (1 : ℕ) ∉ witnessState2.active ∧
    witnessState2.sizes.getD 0 0
      = witnessState.sizes.getD 0 0 + witnessState.sizes.getD 1 0 ∧
    (∀ k ∈ witnessState2.active, k ≠ 0 →
      mget witnessState2.distances 0 k
        = specLinkageRule id LinkageMethod.average (mget witnessState.distances 0 k)
            (mget witnessState.distances 1 k) (mget witnessState.distances 0 1)
            (witnessState.sizes.getD 0 0) (witnessState.sizes.getD 1 0)
            (witnessState.sizes.getD k 0) ∧
      mget witnessState2.distances k 0
        = specLinkageRule id LinkageMethod.average (mget witnessState.distances 0 k)
            (mget witnessState.distances 1 k) (mget witnessState.distances 0 1)
            (witnessState.sizes.getD 0 0) (witnessState.sizes.getD 1 0)
            (witnessState.sizes.getD k 0)) :=
  linkage_update_rule id LinkageMethod.average 3 witnessState witnessState2 0 1 1
    (by norm_num [findMinPair, orderedPairs, minStep, mget, witnessState])
    (by norm_num [hcStep, findMinPair, orderedPairs, minStep, mget, mset,
      updateRow, updateDist, witnessState, witnessState2, List.set,
      HCState.mk.injEq, show (([1, 1, 1] : List ℕ))[1] = 1 from rfl,
      show (([[0, 1, 2], [1, 0, 3], [2, 3, 0]] : Mat))[1][2]?.getD 0 = 3 from rfl])
    (by decide)
    (by decide)
    (by simp [SquareMat, witnessState])
    rfl

/-! ### C7: the Rand index -/

/-- Modelled from the spec: the number of unordered document pairs on
which the two partitions agree, that is, pairs co-grouped in both or
separated in both. -/
def agreeingPairs (clusters1 : List ℕ) (clusters2 : List String) : ℕ :=
  (orderedPairs (List.range clusters1.length)).countP
    (fun p => decide ((clusters1.getD p.1 0 = clusters1.getD p.2 0)
      ↔ (clusters2.getD p.1 "" = clusters2.getD p.2 "")))

theorem orderedPairs_length {α : Type} :
    ∀ l : List α, (orderedPairs l).length = (l.length).choose 2 := by
  intro l
  induction l with
  | nil => rfl
  | cons x xs ih =>
    rw [orderedPairs, List.length_append, List.length_map, ih, List.length_cons,
      Nat.choose_succ_succ, Nat.choose_one_right]

theorem countP_split {α : Type} (f g h : α → Bool) :
    ∀ l : List α, (∀ x ∈ l, h x = (f x || g x) ∧ (f x && g x) = false) →
      l.countP f + l.countP g = l.countP h := by
  intro l
  induction l with
  | nil => intro _; rfl
  | cons x xs ih =>
    intro hx
    obtain ⟨hh, hfg⟩ := hx x (List.mem_cons_self _ _)
    rw [List.countP_cons, List.countP_cons, List.countP_cons, hh]
    have hrec := ih (fun y hy => hx y (List.mem_cons_of_mem _ hy))
    have hgoal : (if f x = true then 1 else 0) + (if g x = true then 1 else 0)
        = (if (f x || g x) = true then 1 else 0) := by
      cases hf : f x <;> cases hg : g x <;> simp_all
    omega

/-- C7 amended: for sequences of length at least 2, calculateRandIndex
returns the number of agreeing unordered pairs divided by n choose 2, a
value between 0 and 1; for fewer than two documents the source computes
0 divided by 0, which is NaN (modelled none), not the 0 the spec
asserts. -/
theorem calculateRandIndex_agreement (c1 : List ℕ) (c2 : List String) :
    (2 ≤ c1.length →
      calculateRandIndex c1 c2
        = some ((agreeingPairs c1 c2 : ℚ) / ((c1.length.choose 2 : ℕ) : ℚ)) ∧
      (0 : ℚ) ≤ (agreeingPairs c1 c2 : ℚ) / ((c1.length.choose 2 : ℕ) : ℚ) ∧
      (agreeingPairs c1 c2 : ℚ) / ((c1.length.choose 2 : ℕ) : ℚ) ≤ 1) ∧
    (c1.length < 2 → calculateRandIndex c1 c2 = none) := by
  have hab : (orderedPairs (List.range c1.length)).countP
        (fun p => (c1.getD p.1 0 == c1.getD p.2 0)
          && (c2.getD p.1 "" == c2.getD p.2 "")) +
      (orderedPairs (List.range c1.length)).countP
        (fun p => (!(c1.getD p.1 0 == c1.getD p.2 0))
          && (!(c2.getD p.1 "" == c2.getD p.2 ""))) =
      agreeingPairs c1 c2 := by
    apply countP_split
    intro p _
    simp only [Bool.beq_eq_decide_eq, List.getD_eq_getElem?_getD]
    by_cases h1 : c1[p.1]?.getD 0 = c1[p.2]?.getD 0 <;>
      by_cases h2 : c2[p.1]?.getD "" = c2[p.2]?.getD "" <;>
        simp [h1, h2]
  have htotal : (orderedPairs (List.range c1.length)).length = c1.length.choose 2 := by
    rw [orderedPairs_length, List.length_range]
  have hchoose : c1.length * (c1.length - 1) / 2 = c1.length.choose 2 :=
    (Nat.choose_two_right _).symm
  constructor
  · intro h2
    have hpos : 0 < c1.length.choose 2 := Nat.choose_pos h2
    have hne : ¬(c1.length * (c1.length - 1) / 2 = 0) := by
      rw [hchoose]
      omega
    have hle : agreeingPairs c1 c2 ≤ c1.length.choose 2 := by
      rw [← htotal]
      exact List.countP_le_length _
    have hq0 : (0 : ℚ) ≤ (agreeingPairs c1 c2 : ℚ) / ((c1.length.choose 2 : ℕ) : ℚ) :=
      div_nonneg (by positivity) (by positivity)
    have hq1 : (agreeingPairs c1 c2 : ℚ) / ((c1.length.choose 2 : ℕ) : ℚ) ≤ 1 := by
      rw [div_le_one (by exact_mod_cast hpos)]
      exact_mod_cast hle
    refine ⟨?_, hq0, hq1⟩
    simp only [calculateRandIndex]
    rw [if_neg hne]
    congr 1
    rw [← hab, ← hchoose]
    push_cast
    ring
  · intro hsmall
    have hz : c1.length * (c1.length - 1) / 2 = 0 := by
      rcases (by omega : c1.length = 0 ∨ c1.length = 1) with h | h <;> rw [h]
    simp only [calculateRandIndex]
    rw [if_pos hz]

/-- Witness for the Rand index theorem at a concrete two-document
input: the single pair disagrees in neither partition, so the index is
the number of agreeing pairs, 1, over 2 choose 2. -/
theorem calculateRandIndex_agreement_witness :
    calculateRandIndex [0, 1] ["x", "y"]
      = some ((agreeingPairs [0, 1] ["x", "y"] : ℚ)
          / ((([0, 1] : List ℕ).length.choose 2 : ℕ) : ℚ)) ∧
    (0 : ℚ) ≤ (agreeingPairs [0, 1] ["x", "y"] : ℚ)
        / ((([0, 1] : List ℕ).length.choose 2 : ℕ) : ℚ) ∧
    (agreeingPairs [0, 1] ["x", "y"] : ℚ)
        / ((([0, 1] : List ℕ).length.choose 2 : ℕ) : ℚ) ≤ 1 :=
  (calculateRandIndex_agreement [0, 1] ["x", "y"]).1 (by decide)

/-- C7 counterexample: a single document has no pairs; the division 0
by 0 yields NaN (modelled none), so the function does not return 0 as
the claim asserts. -/
theorem calculateRandIndex_small_counterexample :
    calculateRandIndex [0] ["x"] = none ∧ calculateRandIndex [0] ["x"] ≠ some 0 := by
  have h : calculateRandIndex [0] ["x"] = none := rfl
  exact ⟨h, by rw [h]; simp⟩

/-! ### C10: the weighted vote weight function at distance zero -/

/-- Reference set for the weighted-vote scenario: one exact match
labelled positive and two strictly more distant negative neighbors. -/
def knnScenarioTraining : List Tweet :=
  [⟨"a", "a", "positive"⟩, ⟨"a b", "a b", "negative"⟩, ⟨"a c", "a c", "negative"⟩]

theorem defaultDistance_a_a : defaultDistance "a" "a" = 0 := by
  simp only [defaultDistance]
  rw [show wordSet "a" = ["a"] from by decide,
    show jsDedup ((["a"] : List String) ++ (["a"] : List String)) = ["a"] from by decide,
    show jsDedup ((["a"] : List String).filter
      (fun x => x ∈ (["a"] : List String))) = ["a"] from by decide]
  norm_num

theorem defaultDistance_a_ab : defaultDistance "a" "a b" = 1 / 2 := by
  simp only [defaultDistance]
  rw [show wordSet "a" = ["a"] from by decide,
    show wordSet "a b" = ["a", "b"] from by decide,
    show jsDedup ((["a"] : List String) ++ (["a", "b"] : List String))
      = ["a", "b"] from by decide,
    show jsDedup ((["a"] : List String).filter
      (fun x => x ∈ (["a", "b"] : List String))) = ["a"] from by decide]
  norm_num

theorem defaultDistance_a_ac : defaultDistance "a" "a c" = 1 / 2 := by
  simp only [defaultDistance]
  rw [show wordSet "a" = ["a"] from by decide,
    show wordSet "a c" = ["a", "c"] from by decide,
    show jsDedup ((["a"] : List String) ++ (["a", "c"] : List String))
      = ["a", "c"] from by decide,
    show jsDedup ((["a"] : List String).filter
      (fun x => x ∈ (["a", "c"] : List String))) = ["a"] from by decide]
  norm_num

/-- C10: the weighted KNN vote's weight function is not monotone
decreasing in distance at 0: an exact match (distance 0) gets weight
exactly 1, while any neighbor at distance d with 0 < d < 9999/10000
gets weight 1 / (d + 1/10000), which exceeds 1; consequently, on the
concrete reference set knnScenarioTraining with k = 3 and weighted
voting, the query "a" is classified "negative" although its exact
match (the first, nearest neighbor) is labelled "positive". -/
theorem weighted_vote_non_monotone_at_zero (d : ℚ) :
    neighborWeight 0 = 1 ∧
    (0 < d → d < 9999 / 10000 → 1 < neighborWeight d) ∧
    knnClassify id "a" knnScenarioTraining ⟨3, "weighted", "default"⟩ = "negative" ∧
    defaultDistance "a" "a" = 0 ∧
    (knnScenarioTraining.getD 0 default).label = "positive" := by
  refine ⟨by simp [neighborWeight], ?_, ?_, defaultDistance_a_a, rfl⟩
  · intro h1 h2
    rw [neighborWeight, if_neg (ne_of_gt h1)]
    have hx : 0 < d + 1 / 10000 := by linarith
    rw [lt_div_iff₀ hx, one_mul]
    linarith
  · norm_num [knnClassify, getDistanceFunction, sortByDistance, insertByDistance,
      bumpEntry, neighborWeight, pickMaxLabel, knnScenarioTraining,
      defaultDistance_a_a, defaultDistance_a_ab, defaultDistance_a_ac,
      show ("default" : String) ≠ "jaccard" from by decide,
      show ("default" : String) ≠ "levenshtein" from by decide,
      show ("default" : String) ≠ "cosine" from by decide,
      show ("a" : String) ≠ "" from by decide,
      show ("a b" : String) ≠ "" from by decide,
      show ("a c" : String) ≠ "" from by decide,
      show ("negative" : String) ≠ "positive" from by decide,
      show ("positive" : String) ≠ "negative" from by decide]

/-- Witness for the weight bound at the concrete distance one half:
the hypotheses 0 < 1/2 and 1/2 < 9999/10000 hold, and the weight
1 / (1/2 + 1/10000) exceeds 1. -/
theorem weighted_vote_non_monotone_at_zero_witness :
    ((0 : ℚ) < 1 / 2 ∧ (1 / 2 : ℚ) < 9999 / 10000) ∧ 1 < neighborWeight (1 / 2) :=
  ⟨⟨by norm_num, by norm_num⟩,
    (weighted_vote_non_monotone_at_zero (1 / 2)).2.1 (by norm_num) (by norm_num)⟩

/-! ### Witnesses at concrete inputs for the remaining claim theorems -/

/-- Witness for the C2 amended theorem at a concrete pair of strings. -/
theorem default_and_tweet_distance_formulas_witness :
    defaultDistance "a" "b" = specUnionFormula "a" "b" ∧
    tweetDistance "a" "b" = lowercaseSumFormula "a" "b" :=
  default_and_tweet_distance_formulas "a" "b"

/-- Witness for the C4 amended theorem at a concrete dendrogram. -/
theorem formClusters_dense_renumbering_witness :
    (formClusters [⟨0, 1, 1, 2⟩] 2 2).length = 2 ∧
    jsDedup (formClusters [⟨0, 1, 1, 2⟩] 2 2)
      = List.range (jsDedup (formClusters [⟨0, 1, 1, 2⟩] 2 2)).length ∧
    (jsDedup (formClusters [⟨0, 1, 1, 2⟩] 2 2)).length ≤ 2 :=
  formClusters_dense_renumbering [⟨0, 1, 1, 2⟩] 2 2

/-- Witness for the C8 symmetry theorem at concrete strings. -/
theorem distance_functions_symmetric_witness :
    defaultDistance "a b" "b c" = defaultDistance "b c" "a b" ∧
    jaccardDistance "a b" "b c" = jaccardDistance "b c" "a b" ∧
    levenshteinDistance "ab" "ba" = levenshteinDistance "ba" "ab" ∧
    cosineDistance id "a b" "b c" = cosineDistance id "b c" "a b" ∧
    tweetDistance "a b" "b c" = tweetDistance "b c" "a b" :=
  ⟨distance_functions_symmetric.1 "a b" "b c",
   distance_functions_symmetric.2.1 "a b" "b c",
   distance_functions_symmetric.2.2.1 "ab" "ba",
   distance_functions_symmetric.2.2.2.1 id "a b" "b c",
   distance_functions_symmetric.2.2.2.2 "a b" "b c"⟩

/-- Witness for the C9 frame theorem at a concrete matrix. -/
theorem hierarchicalClustering_preserves_input_witness :
    (hierarchicalClusteringRun id [[(0 : ℚ), 1], [1, 0]]
      LinkageMethod.average).callerMatrix = [[(0 : ℚ), 1], [1, 0]] :=
  hierarchicalClustering_preserves_input id [[(0 : ℚ), 1], [1, 0]] LinkageMethod.average
